import Mathlib

set_option maxHeartbeats 2000000

/-!
Verification development for the magazine assembly pipeline
(`build_magazine.py`, `download_revista_ateista.py`, `build_magazine_old.py`).

The Python data values handled by the identifier normalizers are modelled by
the inductive type `PyVal`; the two `clean_id` variants are embedded as total
Lean functions (the bounded recursion through parsed list-literal strings is
expressed with an explicit fuel argument, shown sufficient by
`clean_id_fuel_stable`).  External collaborators (PIL text metrics, the
`bbcode`/`bleach` libraries, `random.sample`, pandas row selection) are
modelled at their interface boundary, as the spec prescribes.
-/

/-- A Python value as it occurs in the exported records handled by both
`clean_id` normalizers: `None`, strings, (non-negative) integers, lists and
dicts with string keys. -/
inductive PyVal where
  | null
  | str (s : String)
  | int (n : Nat)
  | list (xs : List PyVal)
  | dict (kvs : List (String × PyVal))

mutual

/-- Boolean structural equality of `PyVal`s. -/
def pyBeq : PyVal → PyVal → Bool
  | .null, .null => true
  | .str a, .str b => a == b
  | .int a, .int b => a == b
  | .list xs, .list ys => pyBeqL xs ys
  | .dict xs, .dict ys => pyBeqKV xs ys
  | _, _ => false

/-- Boolean equality of lists of `PyVal`s. -/
def pyBeqL : List PyVal → List PyVal → Bool
  | [], [] => true
  | x :: xs, y :: ys => pyBeq x y && pyBeqL xs ys
  | _, _ => false

/-- Boolean equality of dict entry lists. -/
def pyBeqKV : List (String × PyVal) → List (String × PyVal) → Bool
  | [], [] => true
  | p :: xs, q :: ys => p.1 == q.1 && pyBeq p.2 q.2 && pyBeqKV xs ys
  | _, _ => false

end

/-- Python truthiness (`bool(v)`) for the modelled values: `None`, `""`, `0`,
`[]` and the empty dict are falsy, everything else truthy. -/
def pyTruthy : PyVal → Bool
  | .null => false
  | .str s => !s.toList.isEmpty
  | .int n => n != 0
  | .list xs => !xs.isEmpty
  | .dict kvs => !kvs.isEmpty

/-- Python `dict.get(k)`: the value stored under `k`, or `None` (here `none`)
when the key is missing. -/
def dictGet (kvs : List (String × PyVal)) (k : String) : Option PyVal :=
  (kvs.find? (fun p => p.1 == k)).map (fun p => p.2)

/-- Python `a or b` on optional values: the left operand when it is truthy
(`none` models Python `None`, which is falsy), otherwise the right operand
unchanged. -/
def pyOrV (a b : Option PyVal) : Option PyVal :=
  match a with
  | some v => if pyTruthy v then some v else b
  | none => b

/-- The single-quote character. -/
def squote : Char := Char.ofNat 39

/-- The double-quote character. -/
def dquote : Char := Char.ofNat 34

mutual

/-- Python `repr` of a modelled value (strings are single-quoted; escaping of
special characters inside strings is not modelled). -/
def pyRepr : PyVal → String
  | .null => "None"
  | .str s => squote.toString ++ s ++ squote.toString
  | .int n => toString n
  | .list xs => "[" ++ pyReprElems xs ++ "]"
  | .dict kvs => "\x7b" ++ pyReprKVs kvs ++ "\x7d"

/-- Comma-separated `repr`s of list elements. -/
def pyReprElems : List PyVal → String
  | [] => ""
  | [x] => pyRepr x
  | x :: y :: xs => pyRepr x ++ ", " ++ pyReprElems (y :: xs)

/-- Comma-separated `repr`s of dict entries. -/
def pyReprKVs : List (String × PyVal) → String
  | [] => ""
  | [p] => squote.toString ++ p.1 ++ squote.toString ++ ": " ++ pyRepr p.2
  | p :: q :: xs =>
      squote.toString ++ p.1 ++ squote.toString ++ ": " ++ pyRepr p.2 ++ ", " ++
      pyReprKVs (q :: xs)

end

/-- Python `str(v)`: the string itself for strings, `repr` otherwise. -/
def pyStr : PyVal → String
  | .str s => s
  | v => pyRepr v

mutual

/-- Size measure used to bound the recursion depth of `clean_id`: a string
counts as its length (a parsed first element of a list-literal string is
always strictly smaller, see `literalEval_first_size`), a list as one more
than the sum of its elements. -/
def vmeasure : PyVal → Nat
  | .null => 0
  | .int _ => 0
  | .dict _ => 0
  | .str s => s.length
  | .list xs => vmeasureL xs + 1

/-- Sum of `vmeasure` over a list of values. -/
def vmeasureL : List PyVal → Nat
  | [] => 0
  | x :: xs => vmeasure x + vmeasureL xs

end

/-- Python `s.startswith(p)`, computed on the character lists. -/
def strStartsWith (s p : String) : Bool :=
  s.toList.take p.toList.length == p.toList

/-- Python `s.endswith(p)`, computed on the character lists. -/
def strEndsWith (s p : String) : Bool :=
  s.toList.reverse.take p.toList.length == p.toList.reverse

/-- Python `s.strip()`: remove leading and trailing whitespace. -/
def pyStrip (s : String) : String :=
  (((s.toList.dropWhile Char.isWhitespace).reverse.dropWhile
      Char.isWhitespace).reverse).asString

/-- Skip blanks, as `ast.literal_eval` accepts whitespace between tokens. -/
def skipWs (cs : List Char) : List Char :=
  cs.dropWhile Char.isWhitespace

/-- Decimal digits to a natural number. -/
def digitsToNat (ds : List Char) : Nat :=
  ds.foldl (fun acc c => acc * 10 + (c.toNat - 48)) 0

mutual

/-- Recursive-descent model of `ast.literal_eval` restricted to the literal
shapes that matter to `clean_id`: quoted strings (without escape sequences),
decimal integers, `None`, and (nested) lists of these.  The fuel argument
makes the recursion structural; `literalEval` supplies enough fuel for any
input. -/
def parseLit : Nat → List Char → Option (PyVal × List Char)
  | 0, _ => none
  | fuel + 1, cs =>
    match skipWs cs with
    | [] => none
    | c :: rest =>
      if c == squote || c == dquote then
        match rest.dropWhile (fun d => d != c) with
        | _ :: rest2 => some (.str (rest.takeWhile (fun d => d != c)).asString, rest2)
        | [] => none
      else if c == '[' then
        match parseElems fuel rest with
        | some (vs, rest2) => some (.list vs, rest2)
        | none => none
      else if c.isDigit then
        some (.int (digitsToNat ((c :: rest).takeWhile Char.isDigit)),
              (c :: rest).dropWhile Char.isDigit)
      else if (c :: rest).take 4 = ['N', 'o', 'n', 'e'] then
        some (.null, (c :: rest).drop 4)
      else none

/-- Elements of a list literal, after the opening bracket. -/
def parseElems : Nat → List Char → Option (List PyVal × List Char)
  | 0, _ => none
  | fuel + 1, cs =>
    match skipWs cs with
    | [] => none
    | c :: rest =>
      if c == ']' then some ([], rest)
      else
        match parseLit fuel cs with
        | some (v, rest1) =>
          match skipWs rest1 with
          | [] => none
          | d :: rest2 =>
            if d == ',' then
              match parseElems fuel rest2 with
              | some (vs, rest3) => some (v :: vs, rest3)
              | none => none
            else if d == ']' then some ([v], rest2)
            else none
        | none => none

end

/-- Model of `ast.literal_eval` on a whole string: parse one literal and
require that only whitespace remains (Python rejects trailing junk). -/
def literalEval (s : String) : Option PyVal :=
  match parseLit (2 * s.length + 8) s.toList with
  | some (v, rest) => if (skipWs rest).isEmpty then some v else none
  | none => none

namespace BuildMagazine

/-- Fueled body of `clean_id` from `src/build_magazine.py` (lines 36-45):
`None` maps to `None`; a string starting with `[` is fed to
`ast.literal_eval` and, when that yields a non-empty list, the first element
is normalized recursively, while any other parse outcome (including a raised
parse error) falls back to the original string; a dict yields
`get("unique_id") or get("_id")`; everything else yields `str(v)`.  Note the
source has no branch for genuine Python lists: they fall through to
`str(v)`.  The fuel only bounds the recursion depth; `clean_id_fuel_stable`
shows any fuel above `vmeasure v` gives the same result. -/
def clean_id_fuel : Nat → PyVal → Option PyVal
  | 0, _ => none
  | fuel + 1, v =>
    match v with
    | .null => none
    | .str s =>
      if strStartsWith s "[" then
        match literalEval s with
        | some (.list (x :: _)) => clean_id_fuel fuel x
        | _ => some (.str s)
      else some (.str s)
    | .dict kvs => pyOrV (dictGet kvs "unique_id") (dictGet kvs "_id")
    | w => some (.str (pyStr w))

/-- `clean_id` of `src/build_magazine.py`, with sufficient fuel. -/
def clean_id (v : PyVal) : Option PyVal :=
  clean_id_fuel (vmeasure v + 1) v

end BuildMagazine

namespace Download

/-- Fueled body of `clean_id` from `src/download_revista_ateista.py`
(lines 120-142): falsy values map to `None`; a genuine list recurses on its
first element; a string is stripped and, when the stripped form starts with
`[` and ends with `]` and parses to a non-empty list, the first element is
normalized recursively, while every other outcome returns the *stripped*
string; a dict yields `get("unique_id") or get("_id") or get("id")`;
everything else yields `str(value)`. -/
def clean_id_fuel : Nat → PyVal → Option PyVal
  | 0, _ => none
  | fuel + 1, v =>
    if pyTruthy v then
      match v with
      | .list (x :: _) => clean_id_fuel fuel x
      | .list [] => none
      | .str s =>
        let t := pyStrip s
        if strStartsWith t "[" && strEndsWith t "]" then
          match literalEval t with
          | some (.list (x :: _)) => clean_id_fuel fuel x
          | _ => some (.str t)
        else some (.str t)
      | .dict kvs =>
          pyOrV (dictGet kvs "unique_id")
            (pyOrV (dictGet kvs "_id") (dictGet kvs "id"))
      | w => some (.str (pyStr w))
    else none

/-- `clean_id` of `src/download_revista_ateista.py`, with sufficient fuel. -/
def clean_id (v : PyVal) : Option PyVal :=
  clean_id_fuel (vmeasure v + 1) v

end Download

/-- Whether the modelled `ast.literal_eval` of `s` yields a non-empty list —
the only outcome on which `clean_id` recurses instead of falling back. -/
def parsedNonempty (s : String) : Bool :=
  match literalEval s with
  | some (.list (_ :: _)) => true
  | _ => false

/-! ### Articles, editions, selection and ordering (`main`) -/

/-- An article row as used by the selection, ordering and highlight steps of
`main` in `src/build_magazine.py`: `status`, `edicao` (polymorphic edition
reference), `tipo`, `titulo`, the raw `conteudo` markup and the derived
`conteudo_html`. -/
structure Article where
  status : String
  edicao : PyVal
  tipo : String
  titulo : String
  conteudo : String
  conteudo_html : String

/-- An edition row: uninterpreted `_id` and ordinal `numero`. -/
structure Edition where
  _id : String
  numero : Int

/-- Models lines 207-209 of `src/build_magazine.py`: `ed_df["numero"].max()`
followed by selecting the first row attaining the maximum.  On an empty
Edition collection the pandas positional lookup `iloc[0]` raises
`IndexError: single positional indexer is out-of-bounds`, modelled as the
`Except.error` carrying that message. -/
def pick_edition (eds : List Edition) : Except String Edition :=
  match (eds.map (fun e => e.numero)).max? with
  | none => .error "single positional indexer is out-of-bounds"
  | some m =>
    match eds.find? (fun e => e.numero == m) with
    | some e => .ok e
    | none => .error "single positional indexer is out-of-bounds"

/-- The Python comparison `clean_id(edicao) == ed_id` with `ed_id` a string:
true exactly when the normalization result is that string (a `None` or
non-string result never equals a string in Python). -/
def refMatches (r : Option PyVal) (ed_id : String) : Bool :=
  match r with
  | some v => pyBeq v (.str ed_id)
  | none => false

/-- Selection mask of line 216:
`(status == "Aprovado") & (edicao.apply(clean_id) == ed_id)`. -/
def select_articles (arts : List Article) (ed_id : String) : List Article :=
  arts.filter (fun a =>
    a.status == "Aprovado" && refMatches (BuildMagazine.clean_id a.edicao) ed_id)

/-- Sort key of line 226: `0 if a["tipo"] == "Editorial" else 1`. -/
def editorialKey (a : Article) : Nat :=
  if a.tipo == "Editorial" then 0 else 1

/-- Stable insertion: place `x` after every element with a strictly smaller
key and before the first element whose key is not smaller. -/
def insertByKey {α : Type} (key : α → Nat) (x : α) : List α → List α
  | [] => [x]
  | y :: ys => if key y < key x then y :: insertByKey key x ys else x :: y :: ys

/-- Stable insertion sort by key.  Python `sorted` is a stable sort, and all
stable sorts of the same keyed list agree, so this models line 226
extensionally. -/
def sortByKey {α : Type} (key : α → Nat) : List α → List α
  | [] => []
  | x :: xs => insertByKey key x (sortByKey key xs)

/-- Line 226: `sorted(articles, key=lambda a: 0 if a["tipo"]=="Editorial" else 1)`. -/
def sortEditorialFirst (arts : List Article) : List Article :=
  sortByKey editorialKey arts

/-- A highlight entry of line 230: the article title and a placeholder page. -/
structure Highlight where
  title : String
  page : String
deriving DecidableEq

/-- Candidate pool of line 229: non-Editorial articles whose title has at
most 50 characters. -/
def highlight_pool (articles : List Article) : List Article :=
  articles.filter (fun a =>
    a.tipo != "Editorial" && decide (a.titulo.length ≤ 50))

/-- One draw of `random.sample(cand, k)` is modelled by the list `idxs` of
chosen positions; `random.sample` guarantees the positions are pairwise
distinct (sampling without replacement), in range, and that
`k = min 3 (cand.length)` at line 230.  Positions out of range (never
produced by `random.sample`) are skipped. -/
def sample_by (pool : List Article) (idxs : List Nat) : List Article :=
  idxs.filterMap (fun i => pool[i]?)

/-- Line 230: projection of the sampled articles to highlight entries. -/
def make_highlights (pool : List Article) (idxs : List Nat) : List Highlight :=
  (sample_by pool idxs).map (fun p => { title := p.titulo, page := "?" })

/-! ### Markup sanitizer (`bb2html`, lines 22-33) -/

/-- One token of the serialized HTML handled by the sanitizer (bleach
sanitizes the html5lib token stream). -/
inductive Tok where
  | startTag (name : String) (attrs : List (String × String))
  | endTag (name : String)
  | text (s : String)
deriving DecidableEq

/-- `bleach.sanitizer.ALLOWED_TAGS` plus the structural additions of
lines 24-26. -/
def ALLOWED_TAGS : List String :=
  ["a", "abbr", "acronym", "b", "blockquote", "code", "em", "i", "li", "ol",
   "strong", "ul", "p", "span", "div", "h1", "h2", "h3", "br", "hr", "img"]

/-- Line 27 (`ALLOWED_ATTR`): `class` on any tag, `src`/`alt` only on `img`. -/
def allowed_attribute (tag attr : String) : Bool :=
  attr == "class" || (tag == "img" && (attr == "src" || attr == "alt"))

/-- Line 28: the CSS properties allowed by the `CSSSanitizer`. -/
def allowed_css_properties : List String := ["color", "font-size", "text-align"]

/-- Concatenation of a list of strings. -/
def strJoin (l : List String) : String := l.foldr (fun a b => a ++ b) ""

/-- Split a character list at every occurrence of `sep`. -/
def splitOnChar (sep : Char) : List Char → List (List Char)
  | [] => [[]]
  | c :: rest =>
    let r := splitOnChar sep rest
    if c == sep then [] :: r
    else
      match r with
      | g :: gs => (c :: g) :: gs
      | [] => [[c]]

/-- Inline `style` values parsed as `prop: value` declarations separated by
`;` (the shape handled by the bleach `CSSSanitizer`). -/
def cssParse (v : String) : List (String × String) :=
  (splitOnChar (Char.ofNat 59) v.toList).filterMap (fun decl =>
    match splitOnChar (Char.ofNat 58) decl with
    | [p, val] => some (pyStrip p.asString, pyStrip val.asString)
    | _ => none)

/-- The `CSSSanitizer` contract: keep only declarations whose property is in
the allow-list; other properties are stripped, not rejected wholesale. -/
def sanitize_css (decls : List (String × String)) : List (String × String) :=
  decls.filter (fun d => allowed_css_properties.contains d.1)

/-- Serialize sanitized declarations back to an inline style value. -/
def cssSerialize (decls : List (String × String)) : String :=
  strJoin (decls.map (fun d => d.1 ++ ": " ++ d.2 ++ "; "))

/-- Attribute cleaning of `bleach.clean`: keep only allowed attributes; the
value of a (hypothetically allowed) `style` attribute is re-serialized from
its sanitized declarations. -/
def bleach_attrs (tag : String) (attrs : List (String × String)) :
    List (String × String) :=
  (attrs.filter (fun a => allowed_attribute tag a.1)).map (fun a =>
    if a.1 == "style" then (a.1, cssSerialize (sanitize_css (cssParse a.2)))
    else a)

/-- HTML escape of character data (`&`, `<`, `>`). -/
def escape_html (s : String) : String :=
  (s.toList.foldr (fun c acc =>
    (if c == '&' then "&amp;".toList
     else if c == '<' then "&lt;".toList
     else if c == '>' then "&gt;".toList
     else [c]) ++ acc) []).asString

/-- Serialize attributes back to markup text. -/
def serialize_attrs (attrs : List (String × String)) : String :=
  strJoin (attrs.map (fun a => " " ++ a.1 ++ "=" ++ "\"" ++ a.2 ++ "\""))

/-- Serialize one token back to markup text. -/
def serialize_tok : Tok → String
  | .text s => s
  | .startTag n attrs => "<" ++ n ++ serialize_attrs attrs ++ ">"
  | .endTag n => "</" ++ n ++ ">"

/-- Serialize a token stream. -/
def serialize_toks (ts : List Tok) : String := strJoin (ts.map serialize_tok)

/-- `bleach.clean` on one token: allowed tags keep only allowed attributes;
disallowed tags are escaped into character data (bleach default
`strip=False`); character data is escaped. -/
def bleach_tok : Tok → Tok
  | .startTag n attrs =>
      if ALLOWED_TAGS.contains n then .startTag n (bleach_attrs n attrs)
      else .text (escape_html (serialize_tok (.startTag n attrs)))
  | .endTag n =>
      if ALLOWED_TAGS.contains n then .endTag n
      else .text (escape_html (serialize_tok (.endTag n)))
  | .text s => .text (escape_html s)

/-- `bleach.clean(..., tags=ALLOWED_TAGS, attributes=ALLOWED_ATTR,
css_sanitizer=SAN)` over the token stream. -/
def bleach_clean (ts : List Tok) : List Tok := ts.map bleach_tok

/-- `bb2html` of lines 31-33: `bleach.clean(BB.format(txt or ""), ...)`.  The
external `bbcode` expansion composed with the html5lib tokenization is
abstracted as a function `bbTokens` from the input markup to the token
stream of the raw HTML; `BB.format("") = ""` (hence `bbTokens "" = []`) is a
fact of the bbcode library assumed as a hypothesis where needed.  `none`
models Python `None`; `txt or ""` maps both `None` and `""` to `""`. -/
def bb2html (bbTokens : String → List Tok) (txt : Option String) : String :=
  serialize_toks (bleach_clean (bbTokens (match txt with | none => "" | some s => s)))

/-- The allow-list property of one output token: tag from `ALLOWED_TAGS`,
attributes only `class` (any tag) and `src`/`alt` (on `img`), and any
surviving inline style restricted to the allowed CSS properties. -/
def tok_allowed : Tok → Bool
  | .text _ => true
  | .endTag n => ALLOWED_TAGS.contains n
  | .startTag n attrs =>
      ALLOWED_TAGS.contains n &&
      attrs.all (fun a =>
        allowed_attribute n a.1 &&
        (a.1 != "style" ||
          (cssParse a.2).all (fun d => allowed_css_properties.contains d.1)))

/-! ### Cover fonts and pipeline -/

/-- A PIL font handle. -/
inductive Font where
  | truetype (path : String) (size : Nat)
  | load_default
deriving DecidableEq

/-- `PIL.ImageFont.truetype` at the interface boundary: raises `OSError`
(modelled as `Except.error`) when the font asset cannot be opened, `avail`
being the availability map of the asset provider. -/
def imagefont_truetype (avail : String → Bool) (path : String) (size : Nat) :
    Except String Font :=
  if avail path then .ok (.truetype path size)
  else .error "OSError: cannot open resource"

/-- Font resolution of `compose_cover` in `src/build_magazine.py`
(lines 108-109): two unguarded `ImageFont.truetype` calls, so a missing font
asset propagates the `OSError` and aborts the cover composition. -/
def compose_cover_fonts (avail : String → Bool) : Except String (Font × Font) :=
  match imagefont_truetype avail "fonts/Lora-Bold.ttf" 196 with
  | .error e => .error e
  | .ok t =>
      match imagefont_truetype avail "fonts/Lora-Bold.ttf" 196 with
      | .error e => .error e
      | .ok u => .ok (t, u)

/-- Font resolution of `compose_cover` in `src/build_magazine_old.py`
(lines 106-110): the `try/except OSError` falls back to
`ImageFont.load_default()` for both fonts, and composition continues. -/
def compose_cover_fonts_old (avail : String → Bool)
    (size_title size_sub : Nat) : Font × Font :=
  match imagefont_truetype avail "arial.ttf" size_title,
        imagefont_truetype avail "arial.ttf" size_sub with
  | .ok t, .ok u => (t, u)
  | _, _ => (.load_default, .load_default)

/-- The pipeline of `main` (`src/build_magazine.py` lines 204-241) after the
CSV loads, over an in-memory record snapshot: pick the current edition
(maximum `numero`), select the approved articles of that edition, attach the
sanitized HTML, order Editorial first, draw the highlights (`idxs` models
the random draw of `random.sample`), resolve the cover fonts and hand
everything to the external document renderer `render`. -/
def run_pipeline {w : Type} (bbTokens : String → List Tok)
    (avail : String → Bool) (eds : List Edition) (arts : List Article)
    (idxs : List Nat)
    (render : Edition → List Article → List Highlight → Font × Font → w) :
    Except String w :=
  match pick_edition eds with
  | .error e => .error e
  | .ok edition =>
    let selected := select_articles arts edition._id
    let withHtml := selected.map
      (fun a => { a with conteudo_html := bb2html bbTokens (some a.conteudo) })
    let ordered := sortEditorialFirst withHtml
    let cand := highlight_pool ordered
    let highlights := make_highlights cand idxs
    match compose_cover_fonts avail with
    | .error e => .error e
    | .ok fonts => .ok (render edition ordered highlights fonts)

/-! ### Cover word-wrap (`wrap_text`, lines 51-71) -/

/-- Python `text.split()` over characters, with an accumulator for the word
being read (kept reversed): split on whitespace runs, dropping empties. -/
def pyWordsAux : List Char → List Char → List (List Char)
  | acc, [] => if acc.isEmpty then [] else [acc.reverse]
  | acc, c :: rest =>
      if c.isWhitespace then
        if acc.isEmpty then pyWordsAux [] rest
        else acc.reverse :: pyWordsAux [] rest
      else pyWordsAux (c :: acc) rest

/-- Python `text.split()` (line 57). -/
def pySplit (s : String) : List String :=
  (pyWordsAux [] s.toList).map (fun w => w.asString)

/-- Python `" ".join(ws)`. -/
def joinWords : List String → String
  | [] => ""
  | w :: ws => ws.foldl (fun acc x => acc ++ " " ++ x) w

/-- One iteration of the `wrap_text` loop (lines 61-68): extend the current
line when the measured candidate fits, otherwise emit the current line (even
when it is empty) and start a new one with the overflowing word.  `width`
models `draw.textbbox((0, 0), line, font)[2]`, the external PIL metric. -/
def wrapStep (width : String → Nat) (max_width : Nat)
    (st : List String × List String) (w : String) : List String × List String :=
  let test_line := joinWords (st.2 ++ [w])
  if width test_line ≤ max_width then (st.1, st.2 ++ [w])
  else (st.1 ++ [joinWords st.2], [w])

/-- `wrap_text` of `src/build_magazine.py` lines 51-71. -/
def wrap_text (width : String → Nat) (text : String) (max_width : Nat) :
    List String :=
  let r := (pySplit text).foldl (wrapStep width max_width) ([], [])
  if r.2.isEmpty then r.1 else r.1 ++ [joinWords r.2]

/-- Invariant of the `wrap_text` fold: with `ws0` the full word list of the
input and `rem` the words still to process, the emitted lines `st.1` are
exactly the space-joins of consecutive chunks whose concatenation, followed
by the current line `st.2` and `rem`, recovers `ws0`; every emitted line
fits the maximum width unless it is a single over-wide input word; and the
current line is empty, a single input word, or measured within the maximum
width. -/
def WrapInv (width : String → Nat) (max_width : Nat) (ws0 : List String)
    (st : List String × List String) (rem : List String) : Prop :=
  ∃ chunks : List (List String),
    chunks.flatten ++ st.2 ++ rem = ws0 ∧
    st.1 = chunks.map joinWords ∧
    (∀ l ∈ st.1, width l ≤ max_width ∨ (l ∈ ws0 ∧ max_width < width l)) ∧
    (st.2 = [] ∨ (∃ u ∈ ws0, st.2 = [u]) ∨ width (joinWords st.2) ≤ max_width)

/-! ## Theorems -/

mutual

theorem pyBeq_iff : ∀ a b : PyVal, pyBeq a b = true ↔ a = b
  | .null, b => by cases b <;> simp [pyBeq]
  | .str s, b => by cases b <;> simp [pyBeq]
  | .int n, b => by cases b <;> simp [pyBeq]
  | .list xs, b => by
      cases b <;> simp [pyBeq]
      exact pyBeqL_iff xs _
  | .dict kvs, b => by
      cases b <;> simp [pyBeq]
      exact pyBeqKV_iff kvs _

theorem pyBeqL_iff : ∀ xs ys : List PyVal, pyBeqL xs ys = true ↔ xs = ys
  | [], ys => by cases ys <;> simp [pyBeqL]
  | x :: xs, ys => by
      cases ys with
      | nil => simp [pyBeqL]
      | cons y ys => simp [pyBeqL, pyBeq_iff x y, pyBeqL_iff xs ys]

theorem pyBeqKV_iff :
    ∀ xs ys : List (String × PyVal), pyBeqKV xs ys = true ↔ xs = ys
  | [], ys => by cases ys <;> simp [pyBeqKV]
  | (k, v) :: xs, ys => by
      cases ys with
      | nil => simp [pyBeqKV]
      | cons q ys =>
          cases q with
          | mk k2 v2 =>
              simp [pyBeqKV, pyBeq_iff v v2, pyBeqKV_iff xs ys, and_assoc]

end

theorem length_dropWhile_le (p : Char → Bool) (l : List Char) :
    (l.dropWhile p).length ≤ l.length := by
  have h := congrArg List.length (List.takeWhile_append_dropWhile p l)
  rw [List.length_append] at h
  omega

theorem length_takeWhile_add_dropWhile (p : Char → Bool) (l : List Char) :
    (l.takeWhile p).length + (l.dropWhile p).length = l.length := by
  have h := congrArg List.length (List.takeWhile_append_dropWhile p l)
  rw [List.length_append] at h
  omega

theorem length_asString (l : List Char) : (l.asString).length = l.length := rfl

theorem length_pyStrip_le (s : String) : (pyStrip s).length ≤ s.length := by
  unfold pyStrip
  rw [length_asString, List.length_reverse]
  calc ((s.toList.dropWhile Char.isWhitespace).reverse.dropWhile
          Char.isWhitespace).length
      ≤ (s.toList.dropWhile Char.isWhitespace).reverse.length :=
        length_dropWhile_le _ _
    _ = (s.toList.dropWhile Char.isWhitespace).length := List.length_reverse _
    _ ≤ s.toList.length := length_dropWhile_le _ _
    _ = s.length := rfl

theorem vmeasure_list_cons (x : PyVal) (xs : List PyVal) :
    vmeasure (.list (x :: xs)) = vmeasure x + vmeasureL xs + 1 := by
  simp [vmeasure, vmeasureL]

mutual

theorem parseLit_size :
    ∀ (fuel : Nat) (cs : List Char) (v : PyVal) (rest : List Char),
      parseLit fuel cs = some (v, rest) → vmeasure v + 1 + rest.length ≤ cs.length
  | 0, cs, v, rest => by
      intro h
      simp [parseLit] at h
  | fuel + 1, cs, v, rest => by
      intro h
      have hsk0 : (skipWs cs).length ≤ cs.length := length_dropWhile_le _ _
      simp only [parseLit] at h
      rcases hE : skipWs cs with _ | ⟨c, rest1⟩
      · simp only [hE] at h
        exact Option.noConfusion h
      · simp only [hE] at h
        rw [hE] at hsk0
        simp only [List.length_cons] at hsk0
        by_cases hq : (c == squote || c == dquote) = true
        · rw [if_pos hq] at h
          rcases hD : rest1.dropWhile (fun d => d != c) with _ | ⟨q, rest2⟩
          · simp only [hD] at h
            exact Option.noConfusion h
          · simp only [hD, Option.some.injEq, Prod.mk.injEq] at h
            obtain ⟨hv, hr⟩ := h
            subst hv
            subst hr
            have hTD := length_takeWhile_add_dropWhile (fun d => d != c) rest1
            rw [hD] at hTD
            simp only [List.length_cons] at hTD
            simp only [vmeasure, length_asString]
            omega
        · rw [if_neg hq] at h
          by_cases hb : (c == '[') = true
          · rw [if_pos hb] at h
            rcases hP : parseElems fuel rest1 with _ | ⟨vs, rest2⟩
            · simp only [hP] at h
              exact Option.noConfusion h
            · simp only [hP, Option.some.injEq, Prod.mk.injEq] at h
              obtain ⟨hv, hr⟩ := h
              subst hv
              subst hr
              have hIH := parseElems_size fuel rest1 vs _ hP
              have hvl : vmeasure (.list vs) = vmeasureL vs + 1 := by
                simp [vmeasure]
              omega
          · rw [if_neg hb] at h
            by_cases hd : (c.isDigit) = true
            · rw [if_pos hd] at h
              simp only [Option.some.injEq, Prod.mk.injEq] at h
              obtain ⟨hv, hr⟩ := h
              subst hv
              subst hr
              have hdw : ((c :: rest1).dropWhile Char.isDigit).length ≤ rest1.length := by
                rw [List.dropWhile_cons]
                simp only [hd, if_true]
                exact length_dropWhile_le _ _
              simp only [vmeasure]
              omega
            · rw [if_neg hd] at h
              by_cases hn : ((c :: rest1).take 4 = ['N', 'o', 'n', 'e'])
              · rw [if_pos hn] at h
                simp only [Option.some.injEq, Prod.mk.injEq] at h
                obtain ⟨hv, hr⟩ := h
                subst hv
                subst hr
                have hlen := congrArg List.length hn
                simp only [List.length_take, List.length_cons] at hlen
                simp only [vmeasure, List.length_drop, List.length_cons]
                omega
              · rw [if_neg hn] at h
                exact absurd h (by simp)

theorem parseElems_size :
    ∀ (fuel : Nat) (cs : List Char) (vs : List PyVal) (rest : List Char),
      parseElems fuel cs = some (vs, rest) →
        vmeasureL vs + vs.length + 1 + rest.length ≤ cs.length
  | 0, cs, vs, rest => by
      intro h
      simp [parseElems] at h
  | fuel + 1, cs, vs, rest => by
      intro h
      have hsk0 : (skipWs cs).length ≤ cs.length := length_dropWhile_le _ _
      simp only [parseElems] at h
      rcases hE : skipWs cs with _ | ⟨c, rest0⟩
      · simp only [hE] at h
        exact Option.noConfusion h
      · simp only [hE] at h
        rw [hE] at hsk0
        simp only [List.length_cons] at hsk0
        by_cases hc : (c == ']') = true
        · rw [if_pos hc] at h
          simp only [Option.some.injEq, Prod.mk.injEq] at h
          obtain ⟨hv, hr⟩ := h
          subst hv
          subst hr
          simp only [vmeasureL, List.length_nil]
          omega
        · rw [if_neg hc] at h
          rcases hL : parseLit fuel cs with _ | ⟨v1, rest1⟩
          · simp only [hL] at h
            exact Option.noConfusion h
          · simp only [hL] at h
            have hIH1 := parseLit_size fuel cs v1 rest1 hL
            have hsk1 : (skipWs rest1).length ≤ rest1.length := length_dropWhile_le _ _
            rcases hE2 : skipWs rest1 with _ | ⟨d, rest2⟩
            · simp only [hE2] at h
              exact Option.noConfusion h
            · simp only [hE2] at h
              rw [hE2] at hsk1
              simp only [List.length_cons] at hsk1
              by_cases hd : (d == ',') = true
              · rw [if_pos hd] at h
                rcases hP : parseElems fuel rest2 with _ | ⟨vs3, rest3⟩
                · simp only [hP] at h
                  exact Option.noConfusion h
                · simp only [hP, Option.some.injEq, Prod.mk.injEq] at h
                  obtain ⟨hv, hr⟩ := h
                  subst hv
                  subst hr
                  have hIH2 := parseElems_size fuel rest2 vs3 _ hP
                  simp only [vmeasureL, List.length_cons]
                  omega
              · rw [if_neg hd] at h
                by_cases hd2 : (d == ']') = true
                · rw [if_pos hd2] at h
                  simp only [Option.some.injEq, Prod.mk.injEq] at h
                  obtain ⟨hv, hr⟩ := h
                  subst hv
                  subst hr
                  simp only [vmeasureL, List.length_cons, List.length_nil]
                  omega
                · rw [if_neg hd2] at h
                  exact absurd h (by simp)

end

theorem literalEval_size (s : String) (v : PyVal) (h : literalEval s = some v) :
    vmeasure v < s.length := by
  unfold literalEval at h
  rcases hP : parseLit (2 * s.length + 8) s.toList with _ | ⟨v1, rest1⟩
  · simp only [hP] at h
    exact Option.noConfusion h
  · simp only [hP] at h
    by_cases he : ((skipWs rest1).isEmpty) = true
    · rw [if_pos he] at h
      simp only [Option.some.injEq] at h
      subst h
      have := parseLit_size (2 * s.length + 8) s.toList _ rest1 hP
      have hts : s.toList.length = s.length := rfl
      omega
    · rw [if_neg he] at h
      exact absurd h (by simp)

theorem literalEval_first_size (s : String) (x : PyVal) (xs : List PyVal)
    (h : literalEval s = some (.list (x :: xs))) : vmeasure x < s.length := by
  have h1 := literalEval_size s _ h
  rw [vmeasure_list_cons] at h1
  omega

theorem build_clean_id_fuel_stable :
    ∀ (k : Nat) (v : PyVal), vmeasure v ≤ k → ∀ f, vmeasure v < f →
      BuildMagazine.clean_id_fuel f v = BuildMagazine.clean_id v := by
  intro k
  induction k using Nat.strong_induction_on with
  | _ k ih =>
    intro v hvk f hf
    obtain ⟨g, rfl⟩ : ∃ g, f = g + 1 := ⟨f - 1, by omega⟩
    show BuildMagazine.clean_id_fuel (g + 1) v =
      BuildMagazine.clean_id_fuel (vmeasure v + 1) v
    cases v with
    | null => rfl
    | int n => rfl
    | dict kvs => rfl
    | list xs => rfl
    | str s =>
        simp only [BuildMagazine.clean_id_fuel]
        by_cases hb : strStartsWith s "[" = true
        · rw [if_pos hb, if_pos hb]
          rcases hL : literalEval s with _ | v1
          · rfl
          · cases v1 with
            | null => rfl
            | str t => rfl
            | int n => rfl
            | dict kvs => rfl
            | list ys =>
                cases ys with
                | nil => rfl
                | cons x xs =>
                    have hx : vmeasure x < vmeasure (.str s) := by
                      have h1 := literalEval_first_size s x xs hL
                      simpa [vmeasure] using h1
                    have hsk : vmeasure (.str s) ≤ k := hvk
                    have e1 : BuildMagazine.clean_id_fuel g x =
                        BuildMagazine.clean_id x :=
                      ih (vmeasure x) (by omega) x le_rfl g (by omega)
                    have e2 : BuildMagazine.clean_id_fuel (vmeasure (.str s)) x =
                        BuildMagazine.clean_id x :=
                      ih (vmeasure x) (by omega) x le_rfl _ (by omega)
                    show BuildMagazine.clean_id_fuel g x =
                      BuildMagazine.clean_id_fuel (vmeasure (.str s)) x
                    rw [e1, e2]
        · rw [if_neg hb, if_neg hb]

theorem download_clean_id_fuel_stable :
    ∀ (k : Nat) (v : PyVal), vmeasure v ≤ k → ∀ f, vmeasure v < f →
      Download.clean_id_fuel f v = Download.clean_id v := by
  intro k
  induction k using Nat.strong_induction_on with
  | _ k ih =>
    intro v hvk f hf
    obtain ⟨g, rfl⟩ : ∃ g, f = g + 1 := ⟨f - 1, by omega⟩
    show Download.clean_id_fuel (g + 1) v =
      Download.clean_id_fuel (vmeasure v + 1) v
    cases v with
    | null => rfl
    | int n => rfl
    | dict kvs => rfl
    | list xs =>
        cases xs with
        | nil => rfl
        | cons x xs =>
            show Download.clean_id_fuel g x =
              Download.clean_id_fuel (vmeasure (.list (x :: xs))) x
            have hx : vmeasure x < vmeasure (.list (x :: xs)) := by
              rw [vmeasure_list_cons]
              omega
            have hsk : vmeasure (.list (x :: xs)) ≤ k := hvk
            have e1 : Download.clean_id_fuel g x = Download.clean_id x :=
              ih (vmeasure x) (by omega) x le_rfl g (by omega)
            have e2 : Download.clean_id_fuel (vmeasure (.list (x :: xs))) x =
                Download.clean_id x :=
              ih (vmeasure x) (by omega) x le_rfl _ (by omega)
            rw [e1, e2]
    | str s =>
        simp only [Download.clean_id_fuel]
        by_cases ht : pyTruthy (.str s) = true
        · rw [if_pos ht, if_pos ht]
          by_cases hb :
              (strStartsWith (pyStrip s) "[" && strEndsWith (pyStrip s) "]") = true
          · rw [if_pos hb, if_pos hb]
            rcases hL : literalEval (pyStrip s) with _ | v1
            · rfl
            · cases v1 with
              | null => rfl
              | str t => rfl
              | int n => rfl
              | dict kvs => rfl
              | list ys =>
                  cases ys with
                  | nil => rfl
                  | cons x xs =>
                      have hx : vmeasure x < vmeasure (.str s) := by
                        have h1 := literalEval_first_size (pyStrip s) x xs hL
                        have h2 := length_pyStrip_le s
                        simp only [vmeasure]
                        omega
                      have hsk : vmeasure (.str s) ≤ k := hvk
                      have e1 : Download.clean_id_fuel g x = Download.clean_id x :=
                        ih (vmeasure x) (by omega) x le_rfl g (by omega)
                      have e2 : Download.clean_id_fuel (vmeasure (.str s)) x =
                          Download.clean_id x :=
                        ih (vmeasure x) (by omega) x le_rfl _ (by omega)
                      show Download.clean_id_fuel g x =
                        Download.clean_id_fuel (vmeasure (.str s)) x
                      rw [e1, e2]
          · rw [if_neg hb, if_neg hb]
        · rw [if_neg ht, if_neg ht]

theorem refMatches_iff (r : Option PyVal) (ed : String) :
    refMatches r ed = true ↔ r = some (.str ed) := by
  cases r with
  | none => simp [refMatches]
  | some v => simp [refMatches, pyBeq_iff]

/-- C4 counterexample: the build-side `clean_id` has no genuine-list branch —
a one-element list is stringified by the `str(v)` fallback instead of being
normalized to its element, and the empty list yields the string `"[]"`, not
absent. -/
theorem clean_id_list_counterexample :
    BuildMagazine.clean_id (.list [.str "E2"]) ≠
      BuildMagazine.clean_id (.str "E2") ∧
    BuildMagazine.clean_id (.list []) ≠ none := by
  refine ⟨fun h => ?_, fun h => ?_⟩
  · have hb : false = true :=
      congrArg (fun o => match o with
        | some v => pyBeq v (.str "E2")
        | none => false) h
    exact Bool.noConfusion hb
  · exact Option.noConfusion h

/-- C4 (amended): the ingestion-side `clean_id` does satisfy the claim — a
genuine one-element list normalizes to its element and the empty list to
absent — but the build-side variant has no genuine-list branch: every
genuine list falls through to the `str(v)` fallback (so the empty list
yields the string `"[]"`) and the claimed identity fails there. -/
theorem clean_id_list_amended (v : PyVal) (xs : List PyVal) :
    Download.clean_id (.list [v]) = Download.clean_id v ∧
    Download.clean_id (.list []) = none ∧
    BuildMagazine.clean_id (.list xs) = some (.str (pyStr (.list xs))) := by
  refine ⟨?_, rfl, rfl⟩
  have h1 : vmeasure (PyVal.list [v]) = vmeasure v + 1 := by
    rw [vmeasure_list_cons]
    simp [vmeasureL]
  calc Download.clean_id (.list [v])
      = Download.clean_id_fuel (vmeasure (PyVal.list [v]) + 1) (.list [v]) := rfl
    _ = Download.clean_id_fuel (vmeasure v + 1 + 1) (.list [v]) := by rw [h1]
    _ = Download.clean_id_fuel (vmeasure v + 1) v := rfl
    _ = Download.clean_id v := rfl

/-- C5 counterexample: on the string `"[oops "` — which starts with `[` and
does not parse as a literal list — the ingestion-side `clean_id` returns the
*stripped* string `"[oops"`, not the original string unchanged. -/
theorem clean_id_strip_counterexample :
    strStartsWith "[oops " "[" = true ∧
    parsedNonempty "[oops " = false ∧
    Download.clean_id (.str "[oops ") = some (.str "[oops") ∧
    ("[oops" : String) ≠ "[oops " := by
  refine ⟨rfl, rfl, rfl, by decide⟩

/-- C5 (amended): both `clean_id` variants terminate with a fuel-independent
result (the recursion through parsed list-literal strings is bounded, and no
exception escapes), and on a string that starts with `[` but does not parse
to a non-empty list the build-side variant returns the original string
unchanged, while the ingestion-side variant returns the *stripped* string —
equal to the original exactly when it carries no surrounding whitespace. -/
theorem clean_id_total_amended (v : PyVal) (f : Nat) (s : String)
    (hf : vmeasure v < f) (hs : strStartsWith s "[" = true)
    (hpB : parsedNonempty s = false)
    (hpD : parsedNonempty (pyStrip s) = false) :
    (BuildMagazine.clean_id_fuel f v = BuildMagazine.clean_id v ∧
      Download.clean_id_fuel f v = Download.clean_id v) ∧
    BuildMagazine.clean_id (.str s) = some (.str s) ∧
    Download.clean_id (.str s) = some (.str (pyStrip s)) := by
  refine ⟨⟨build_clean_id_fuel_stable (vmeasure v) v le_rfl f hf,
          download_clean_id_fuel_stable (vmeasure v) v le_rfl f hf⟩, ?_, ?_⟩
  · show BuildMagazine.clean_id_fuel (vmeasure (.str s) + 1) (.str s) =
      some (.str s)
    simp only [BuildMagazine.clean_id_fuel]
    rw [if_pos hs]
    unfold parsedNonempty at hpB
    rcases hL : literalEval s with _ | v1
    · rfl
    · rw [hL] at hpB
      cases v1 with
      | null => rfl
      | str t => rfl
      | int n => rfl
      | dict kvs => rfl
      | list ys =>
          cases ys with
          | nil => rfl
          | cons x xs => exact absurd hpB (by simp)
  · show Download.clean_id_fuel (vmeasure (.str s) + 1) (.str s) =
      some (.str (pyStrip s))
    have ht : pyTruthy (.str s) = true := by
      simp only [pyTruthy]
      cases hsl : s.toList with
      | nil =>
          unfold strStartsWith at hs
          rw [hsl] at hs
          exact absurd hs (by simp)
      | cons c cs => simp [hsl]
    simp only [Download.clean_id_fuel]
    rw [if_pos ht]
    by_cases hb :
        (strStartsWith (pyStrip s) "[" && strEndsWith (pyStrip s) "]") = true
    · rw [if_pos hb]
      unfold parsedNonempty at hpD
      rcases hL : literalEval (pyStrip s) with _ | v1
      · rfl
      · rw [hL] at hpD
        cases v1 with
        | null => rfl
        | str t => rfl
        | int n => rfl
        | dict kvs => rfl
        | list ys =>
            cases ys with
            | nil => rfl
            | cons x xs => exact absurd hpD (by simp)
    · rw [if_neg hb]

/-- C5 witness at a concrete malformed list-like string. -/
theorem clean_id_total_amended_witness :
    (vmeasure (PyVal.int 7) < 5 ∧ strStartsWith "[oops " "[" = true ∧
      parsedNonempty "[oops " = false ∧
      parsedNonempty (pyStrip "[oops ") = false) ∧
    ((BuildMagazine.clean_id_fuel 5 (.int 7) = BuildMagazine.clean_id (.int 7) ∧
      Download.clean_id_fuel 5 (.int 7) = Download.clean_id (.int 7)) ∧
    BuildMagazine.clean_id (.str "[oops ") = some (.str "[oops ") ∧
    Download.clean_id (.str "[oops ") = some (.str (pyStrip "[oops "))) :=
  ⟨⟨by decide, rfl, rfl, rfl⟩,
   clean_id_total_amended (.int 7) 5 "[oops " (by decide) rfl rfl rfl⟩

/-- C2: the selected set is exactly the articles with status `"Aprovado"`
whose `clean_id`-normalized edition reference equals the current edition id;
on the concrete two-edition, three-article example the current edition is E2
and exactly the first article is selected. -/
theorem select_articles_spec (arts : List Article) (ed_id : String)
    (a : Article) :
    (a ∈ select_articles arts ed_id ↔
      a ∈ arts ∧ a.status = "Aprovado" ∧
        BuildMagazine.clean_id a.edicao = some (.str ed_id)) ∧
    (pick_edition [⟨"E1", 1⟩, ⟨"E2", 2⟩] = .ok ⟨"E2", 2⟩ ∧
      select_articles
        [⟨"Aprovado", .str "E2", "Fatos", "T1", "", ""⟩,
         ⟨"Pendente", .str "E2", "Fatos", "T2", "", ""⟩,
         ⟨"Aprovado", .str "E1", "Fatos", "T3", "", ""⟩] "E2" =
        [⟨"Aprovado", .str "E2", "Fatos", "T1", "", ""⟩]) := by
  refine ⟨?_, rfl, rfl⟩
  rw [select_articles, List.mem_filter]
  simp only [Bool.and_eq_true, beq_iff_eq, refMatches_iff, and_assoc]

theorem insertByKey_key_zero {α : Type} (key : α → Nat) (x : α)
    (ys : List α) (hx : key x = 0) : insertByKey key x ys = x :: ys := by
  cases ys with
  | nil => rfl
  | cons y ys => simp [insertByKey, hx]

theorem insertByKey_between {α : Type} (key : α → Nat) (x : α) (A B : List α)
    (hA : ∀ y ∈ A, key y < key x) (hB : ∀ z ∈ B, ¬ key z < key x) :
    insertByKey key x (A ++ B) = A ++ x :: B := by
  induction A with
  | nil =>
      cases B with
      | nil => rfl
      | cons b B => simp [insertByKey, hB b (by simp)]
  | cons a A ih =>
      simp only [List.cons_append, insertByKey, hA a (by simp), if_true]
      show a :: insertByKey key x (A ++ B) = a :: (A ++ x :: B)
      rw [ih (fun y hy => hA y (by simp [hy]))]

theorem sortByKey_editorial (l : List Article) :
    sortByKey editorialKey l =
      l.filter (fun a => a.tipo == "Editorial") ++
      l.filter (fun a => a.tipo != "Editorial") := by
  induction l with
  | nil => rfl
  | cons a l ih =>
      simp only [sortByKey, ih]
      by_cases h : a.tipo = "Editorial"
      · rw [insertByKey_key_zero _ _ _ (by simp [editorialKey, h])]
        simp [List.filter_cons, h]
      · rw [insertByKey_between editorialKey a
            (l.filter (fun a => a.tipo == "Editorial"))
            (l.filter (fun a => a.tipo != "Editorial"))
            (fun y hy => by
              have hy2 := List.of_mem_filter hy
              simp only [beq_iff_eq] at hy2
              simp [editorialKey, hy2, h])
            (fun z hz => by
              have hz2 := List.of_mem_filter hz
              simp only [bne_iff_ne, ne_eq] at hz2
              simp [editorialKey, hz2, h])]
        simp [List.filter_cons, h]

/-- C6: the ordering step is the stable partition putting Editorial articles
first, preserving input order within each partition; on input types
`[Fatos, Editorial, Humor]` the output order is `[Editorial, Fatos, Humor]`. -/
theorem editorial_first_stable (l : List Article) :
    sortEditorialFirst l =
      l.filter (fun a => a.tipo == "Editorial") ++
      l.filter (fun a => a.tipo != "Editorial") ∧
    sortEditorialFirst
      [⟨"Aprovado", .str "E2", "Fatos", "TF", "", ""⟩,
       ⟨"Aprovado", .str "E2", "Editorial", "TE", "", ""⟩,
       ⟨"Aprovado", .str "E2", "Humor", "TH", "", ""⟩] =
      [⟨"Aprovado", .str "E2", "Editorial", "TE", "", ""⟩,
       ⟨"Aprovado", .str "E2", "Fatos", "TF", "", ""⟩,
       ⟨"Aprovado", .str "E2", "Humor", "TH", "", ""⟩] :=
  ⟨sortByKey_editorial l, rfl⟩

theorem sample_by_length (pool : List Article) :
    ∀ idxs : List Nat, (∀ i ∈ idxs, i < pool.length) →
      (sample_by pool idxs).length = idxs.length
  | [], _ => rfl
  | i :: idxs, h => by
      have hi : i < pool.length := h i (by simp)
      have ih := sample_by_length pool idxs (fun j hj => h j (by simp [hj]))
      simp only [sample_by, List.filterMap_cons, List.getElem?_eq_getElem hi,
        List.length_cons] at ih ⊢
      omega

theorem sample_by_mem (pool : List Article) (idxs : List Nat) (a : Article)
    (ha : a ∈ sample_by pool idxs) : a ∈ pool := by
  simp only [sample_by, List.mem_filterMap] at ha
  obtain ⟨i, _, hi⟩ := ha
  exact List.getElem?_mem hi

theorem sample_by_nodup (pool : List Article) (idxs : List Nat)
    (hpool : pool.Nodup) (hidx : idxs.Nodup) :
    (sample_by pool idxs).Nodup := by
  refine List.Nodup.filterMap ?_ hidx
  intro i j a hi hj
  rw [Option.mem_def] at hi hj
  obtain ⟨hi1, hi2⟩ := List.getElem?_eq_some_iff.mp hi
  obtain ⟨hj1, hj2⟩ := List.getElem?_eq_some_iff.mp hj
  exact (List.Nodup.getElem_inj_iff hpool).mp (by rw [hi2, hj2])

/-- C7 counterexample: two distinct candidates (different edition references)
share the title `"X"`; the draw `[0, 1]` is a legitimate
`random.sample` outcome for the two-element pool (`k = min 3 2 = 2`,
positions distinct and in range), yet the two resulting highlight entries
are equal records — the result is not pairwise distinct. -/
theorem highlights_duplicate_title_counterexample :
    make_highlights
        (highlight_pool
          [⟨"Aprovado", .str "E1", "Fatos", "X", "", ""⟩,
           ⟨"Aprovado", .str "E2", "Fatos", "X", "", ""⟩]) [0, 1] =
      [⟨"X", "?"⟩, ⟨"X", "?"⟩] ∧
    ¬ (make_highlights
        (highlight_pool
          [⟨"Aprovado", .str "E1", "Fatos", "X", "", ""⟩,
           ⟨"Aprovado", .str "E2", "Fatos", "X", "", ""⟩]) [0, 1]).Nodup ∧
    ([0, 1] : List Nat).Nodup ∧
    (∀ i ∈ ([0, 1] : List Nat),
      i < (highlight_pool
        [⟨"Aprovado", .str "E1", "Fatos", "X", "", ""⟩,
         ⟨"Aprovado", .str "E2", "Fatos", "X", "", ""⟩]).length) ∧
    ([0, 1] : List Nat).length =
      min 3 (highlight_pool
        [⟨"Aprovado", .str "E1", "Fatos", "X", "", ""⟩,
         ⟨"Aprovado", .str "E2", "Fatos", "X", "", ""⟩]).length := by
  refine ⟨rfl, by decide, by decide, by decide, rfl⟩

/-- C7 (amended): the candidate pool is exactly the selected articles that
are not Editorial and whose title is at most 50 characters long; the
highlight result has exactly `min 3 (pool size)` entries, each the
projection of a pool article; the draw is without replacement — the sampled
positions are pairwise distinct, so the sampled *articles* are pairwise
distinct whenever the pool has no duplicate article — but the projected
entries themselves can repeat as records when two distinct pool articles
share a title. -/
theorem highlights_amended (arts : List Article) (idxs : List Nat)
    (a : Article) (h1 : idxs.Nodup)
    (h2 : ∀ i ∈ idxs, i < (highlight_pool arts).length)
    (h3 : idxs.length = min 3 (highlight_pool arts).length) :
    (a ∈ highlight_pool arts ↔
      a ∈ arts ∧ a.tipo ≠ "Editorial" ∧ a.titulo.length ≤ 50) ∧
    (make_highlights (highlight_pool arts) idxs).length =
      min 3 (highlight_pool arts).length ∧
    (∀ hl ∈ make_highlights (highlight_pool arts) idxs,
      ∃ p ∈ highlight_pool arts, hl = { title := p.titulo, page := "?" }) ∧
    ((highlight_pool arts).Nodup →
      (sample_by (highlight_pool arts) idxs).Nodup) := by
  refine ⟨?_, ?_, ?_, fun hpool => sample_by_nodup _ _ hpool h1⟩
  · simp [highlight_pool, List.mem_filter, bne_iff_ne, decide_eq_true_eq,
      and_assoc]
  · rw [make_highlights, List.length_map, sample_by_length _ _ h2, h3]
  · intro hl hmem
    simp only [make_highlights, List.mem_map] at hmem
    obtain ⟨p, hp, hph⟩ := hmem
    exact ⟨p, sample_by_mem _ _ _ hp, hph.symm⟩

/-- C7 witness: five candidates with distinct short titles and the draw
`[4, 0, 2]` give exactly three entries drawn without replacement. -/
theorem highlights_amended_witness :
    (make_highlights
        (highlight_pool
          [⟨"Aprovado", .str "E2", "Fatos", "T1", "", ""⟩,
           ⟨"Aprovado", .str "E2", "Fatos", "T2", "", ""⟩,
           ⟨"Aprovado", .str "E2", "Fatos", "T3", "", ""⟩,
           ⟨"Aprovado", .str "E2", "Fatos", "T4", "", ""⟩,
           ⟨"Aprovado", .str "E2", "Fatos", "T5", "", ""⟩]) [4, 0, 2]).length =
      min 3 (highlight_pool
          [⟨"Aprovado", .str "E2", "Fatos", "T1", "", ""⟩,
           ⟨"Aprovado", .str "E2", "Fatos", "T2", "", ""⟩,
           ⟨"Aprovado", .str "E2", "Fatos", "T3", "", ""⟩,
           ⟨"Aprovado", .str "E2", "Fatos", "T4", "", ""⟩,
           ⟨"Aprovado", .str "E2", "Fatos", "T5", "", ""⟩]).length ∧
    (sample_by
        (highlight_pool
          [⟨"Aprovado", .str "E2", "Fatos", "T1", "", ""⟩,
           ⟨"Aprovado", .str "E2", "Fatos", "T2", "", ""⟩,
           ⟨"Aprovado", .str "E2", "Fatos", "T3", "", ""⟩,
           ⟨"Aprovado", .str "E2", "Fatos", "T4", "", ""⟩,
           ⟨"Aprovado", .str "E2", "Fatos", "T5", "", ""⟩]) [4, 0, 2]).Nodup := by
  have H := highlights_amended
    [⟨"Aprovado", .str "E2", "Fatos", "T1", "", ""⟩,
     ⟨"Aprovado", .str "E2", "Fatos", "T2", "", ""⟩,
     ⟨"Aprovado", .str "E2", "Fatos", "T3", "", ""⟩,
     ⟨"Aprovado", .str "E2", "Fatos", "T4", "", ""⟩,
     ⟨"Aprovado", .str "E2", "Fatos", "T5", "", ""⟩] [4, 0, 2]
    ⟨"Aprovado", .str "E2", "Fatos", "T1", "", ""⟩
    (by decide) (by decide) rfl
  refine ⟨H.2.1, H.2.2.2 ?_⟩
  rw [show highlight_pool
      [⟨"Aprovado", .str "E2", "Fatos", "T1", "", ""⟩,
       ⟨"Aprovado", .str "E2", "Fatos", "T2", "", ""⟩,
       ⟨"Aprovado", .str "E2", "Fatos", "T3", "", ""⟩,
       ⟨"Aprovado", .str "E2", "Fatos", "T4", "", ""⟩,
       ⟨"Aprovado", .str "E2", "Fatos", "T5", "", ""⟩] =
      [⟨"Aprovado", .str "E2", "Fatos", "T1", "", ""⟩,
       ⟨"Aprovado", .str "E2", "Fatos", "T2", "", ""⟩,
       ⟨"Aprovado", .str "E2", "Fatos", "T3", "", ""⟩,
       ⟨"Aprovado", .str "E2", "Fatos", "T4", "", ""⟩,
       ⟨"Aprovado", .str "E2", "Fatos", "T5", "", ""⟩] from rfl]
  simp [List.nodup_cons, Article.mk.injEq, PyVal.str.injEq]

/-- C8 (code bug): with the font asset missing, the font resolution of the
current `compose_cover` propagates the `OSError` and the cover composition
aborts, while the old variant falls back to the built-in default typeface
and continues; with the asset present the current variant loads the
configured truetype font. -/
theorem missing_font_aborts :
    compose_cover_fonts (fun _ => false) =
      .error "OSError: cannot open resource" ∧
    compose_cover_fonts_old (fun _ => false) 173 99 =
      (.load_default, .load_default) ∧
    compose_cover_fonts (fun _ => true) =
      .ok (.truetype "fonts/Lora-Bold.ttf" 196,
           .truetype "fonts/Lora-Bold.ttf" 196) :=
  ⟨rfl, rfl, rfl⟩

/-- C9 counterexample: on an empty Edition collection the pipeline aborts
with the pandas positional-indexer `IndexError` signal, which is not a
descriptive "no edition found" signal. -/
theorem no_edition_signal_counterexample :
    run_pipeline (fun _ => []) (fun _ => true) [] [] []
        (fun _ _ _ _ => ()) =
      .error "single positional indexer is out-of-bounds" ∧
    (Except.error "single positional indexer is out-of-bounds" :
        Except String Unit) ≠ .error "no edition found" := by
  exact ⟨rfl, by simp⟩

/-- C9 (amended): an empty Edition collection makes the pipeline fail before
any rendering step executes — the result is the same error for every
renderer, sanitizer front end and asset map, so the renderer is never
invoked — but the failure signal is the generic pandas out-of-bounds
indexing error, not a descriptive "no edition found" message. -/
theorem empty_editions_abort {w : Type} (bbTokens : String → List Tok)
    (avail : String → Bool) (arts : List Article) (idxs : List Nat)
    (render : Edition → List Article → List Highlight → Font × Font → w) :
    run_pipeline bbTokens avail [] arts idxs render =
      .error "single positional indexer is out-of-bounds" := rfl

theorem allowed_attribute_style (n : String) :
    allowed_attribute n "style" = false := by
  simp [allowed_attribute]

theorem bleach_tok_allowed (t : Tok) : tok_allowed (bleach_tok t) = true := by
  cases t with
  | text s => rfl
  | endTag n =>
      by_cases h : n ∈ ALLOWED_TAGS
      · have hb : bleach_tok (.endTag n) = .endTag n := by simp [bleach_tok, h]
        rw [hb]
        simp [tok_allowed, h]
      · have hb : bleach_tok (.endTag n) =
            .text (escape_html (serialize_tok (.endTag n))) := by
          simp [bleach_tok, h]
        rw [hb]
        rfl
  | startTag n attrs =>
      by_cases h : n ∈ ALLOWED_TAGS
      · have hb : bleach_tok (.startTag n attrs) =
            .startTag n (bleach_attrs n attrs) := by
          simp [bleach_tok, h]
        rw [hb]
        simp only [tok_allowed, Bool.and_eq_true, List.all_eq_true]
        refine ⟨by simp [h], ?_⟩
        intro a ha
        simp only [bleach_attrs, List.mem_map, List.mem_filter] at ha
        obtain ⟨b, ⟨hbmem, hballow⟩, hba⟩ := ha
        have hstyle : b.1 ≠ "style" := by
          intro hcontra
          rw [hcontra, allowed_attribute_style] at hballow
          exact Bool.noConfusion hballow
        have hb1 : a.1 = b.1 := by
          rw [← hba]
          by_cases hs : (b.1 == "style") = true <;> simp [hs]
        simp [hb1, hballow, hstyle]
      · have hb : bleach_tok (.startTag n attrs) =
            .text (escape_html (serialize_tok (.startTag n attrs))) := by
          simp [bleach_tok, h]
        rw [hb]
        rfl

theorem bleach_clean_allowed (ts : List Tok) :
    (bleach_clean ts).all tok_allowed = true := by
  simp only [bleach_clean, List.all_eq_true, List.mem_map]
  rintro t ⟨u, hu, rfl⟩
  exact bleach_tok_allowed u

/-- C1: the sanitizer never fails — absent or empty input yields the empty
string — and, for arbitrary (adversarial) token streams, every token that
survives `bleach.clean` satisfies the allow-lists: only allowed tags, only
`class`/`src`/`alt` attributes, and no inline CSS property outside the
allow-list; the output of `bb2html` is always the serialization of such a
sanitized stream. -/
theorem bb2html_sanitizes (bbTokens : String → List Tok)
    (hempty : bbTokens "" = []) (txt : Option String) (ts : List Tok) :
    bb2html bbTokens none = "" ∧
    bb2html bbTokens (some "") = "" ∧
    (bleach_clean ts).all tok_allowed = true ∧
    (∃ us : List Tok, bb2html bbTokens txt = serialize_toks us ∧
      us.all tok_allowed = true) := by
  refine ⟨?_, ?_, bleach_clean_allowed ts,
    ⟨bleach_clean (bbTokens (match txt with | none => "" | some s => s)), rfl,
      bleach_clean_allowed _⟩⟩
  · show serialize_toks (bleach_clean (bbTokens "")) = ""
    rw [hempty]
    rfl
  · show serialize_toks (bleach_clean (bbTokens "")) = ""
    rw [hempty]
    rfl

/-- C1 witness: a front end emitting a script tag with an `onerror` handler
and an `img` with `onerror` is fully sanitized. -/
theorem bb2html_sanitizes_witness :
    bb2html (fun s => if s = "" then [] else
        [.startTag "script" [("onerror", "x")], .text s,
         .startTag "img" [("onerror", "y"), ("src", "u")],
         .endTag "script"]) none = "" ∧
    bb2html (fun s => if s = "" then [] else
        [.startTag "script" [("onerror", "x")], .text s,
         .startTag "img" [("onerror", "y"), ("src", "u")],
         .endTag "script"]) (some "") = "" ∧
    (bleach_clean [Tok.startTag "script" [("onerror", "x")]]).all tok_allowed
      = true ∧
    (∃ us : List Tok,
      bb2html (fun s => if s = "" then [] else
        [.startTag "script" [("onerror", "x")], .text s,
         .startTag "img" [("onerror", "y"), ("src", "u")],
         .endTag "script"]) (some "[b]hello") = serialize_toks us ∧
      us.all tok_allowed = true) :=
  bb2html_sanitizes _ rfl (some "[b]hello")
    [Tok.startTag "script" [("onerror", "x")]]

theorem wrapStep_inv (width : String → Nat) (max_width : Nat)
    (ws0 : List String) (h0 : width "" ≤ max_width) (w : String)
    (rem : List String) (st : List String × List String)
    (H : WrapInv width max_width ws0 st (w :: rem)) :
    WrapInv width max_width ws0 (wrapStep width max_width st w) rem := by
  obtain ⟨lines, cur⟩ := st
  obtain ⟨chunks, hflat, hlines, hQ, hcur⟩ := H
  simp only at hflat hlines hQ hcur
  have hwmem : w ∈ ws0 := by
    rw [← hflat]
    simp
  by_cases hfit : width (joinWords (cur ++ [w])) ≤ max_width
  · have hstep : wrapStep width max_width (lines, cur) w = (lines, cur ++ [w]) := by
      simp [wrapStep, hfit]
    rw [hstep]
    refine ⟨chunks, ?_, hlines, hQ, Or.inr (Or.inr hfit)⟩
    rw [← hflat]
    simp
  · have hstep : wrapStep width max_width (lines, cur) w =
        (lines ++ [joinWords cur], [w]) := by
      simp [wrapStep, hfit]
    rw [hstep]
    refine ⟨chunks ++ [cur], ?_, ?_, ?_, Or.inr (Or.inl ⟨w, hwmem, rfl⟩)⟩
    · rw [← hflat]
      simp
    · simp [hlines]
    · intro l hl
      rcases List.mem_append.mp hl with hl1 | hl2
      · exact hQ l hl1
      · have hl3 : l = joinWords cur := by simpa using hl2
        subst hl3
        rcases hcur with hnil | ⟨u, hu, hcu⟩ | hfits
        · rw [hnil]
          exact Or.inl h0
        · rw [hcu]
          by_cases hwu : width (joinWords [u]) ≤ max_width
          · exact Or.inl hwu
          · exact Or.inr ⟨hu, by omega⟩
        · exact Or.inl hfits

theorem wrap_foldl_inv (width : String → Nat) (max_width : Nat)
    (ws0 : List String) (h0 : width "" ≤ max_width) :
    ∀ (rem : List String) (st : List String × List String),
      WrapInv width max_width ws0 st rem →
      WrapInv width max_width ws0
        (List.foldl (wrapStep width max_width) st rem) []
  | [], st, H => by simpa using H
  | w :: rem, st, H => by
      rw [List.foldl_cons]
      exact wrap_foldl_inv width max_width ws0 h0 rem _
        (wrapStep_inv width max_width ws0 h0 w rem st H)

theorem pyWordsAux_words :
    ∀ (cs acc : List Char), (∀ c ∈ acc, c.isWhitespace = false) →
      ∀ w ∈ pyWordsAux acc cs, w ≠ [] ∧ ∀ c ∈ w, c.isWhitespace = false
  | [], acc, hacc => by
      intro w hw
      simp only [pyWordsAux] at hw
      by_cases he : acc.isEmpty = true
      · rw [if_pos he] at hw
        exact absurd hw (by simp)
      · rw [if_neg he] at hw
        have hw2 : w = acc.reverse := by simpa using hw
        subst hw2
        refine ⟨?_, fun c hc => hacc c (by simpa using hc)⟩
        intro hcontra
        have : acc = [] := by simpa using congrArg List.reverse hcontra
        rw [this] at he
        exact he rfl
  | c :: cs, acc, hacc => by
      intro w hw
      simp only [pyWordsAux] at hw
      by_cases hws : c.isWhitespace = true
      · rw [if_pos hws] at hw
        by_cases he : acc.isEmpty = true
        · rw [if_pos he] at hw
          exact pyWordsAux_words cs [] (by simp) w hw
        · rw [if_neg he] at hw
          rcases List.mem_cons.mp hw with hw1 | hw2
          · subst hw1
            refine ⟨?_, fun d hd => hacc d (by simpa using hd)⟩
            intro hcontra
            have : acc = [] := by simpa using congrArg List.reverse hcontra
            rw [this] at he
            exact he rfl
          · exact pyWordsAux_words cs [] (by simp) w hw2
      · rw [if_neg hws] at hw
        refine pyWordsAux_words cs (c :: acc) ?_ w hw
        intro d hd
        rcases List.mem_cons.mp hd with hd1 | hd2
        · subst hd1
          simpa using hws
        · exact hacc d hd2

theorem pySplit_words (s : String) :
    ∀ w ∈ pySplit s, w.toList ≠ [] ∧ ∀ c ∈ w.toList, c.isWhitespace = false := by
  intro w hw
  simp only [pySplit, List.mem_map] at hw
  obtain ⟨chars, hchars, hcw⟩ := hw
  have h := pyWordsAux_words s.toList [] (by simp) chars hchars
  subst hcw
  exact h

/-- C3: for a title with at least one word (and the PIL fact that the empty
string measures zero), `wrap_text` returns at least one line, the lines are
exactly the space-joins of consecutive chunks of the original word sequence
— whose words are non-empty and whitespace-free, so no word is dropped,
duplicated or reordered — and every line fits the maximum width except a
line that is a single input word wider than the maximum. -/
theorem wrap_text_sound (width : String → Nat) (text : String)
    (max_width : Nat) (hne : pySplit text ≠ []) (h0 : width "" = 0) :
    wrap_text width text max_width ≠ [] ∧
    (∃ chunks : List (List String),
      chunks.flatten = pySplit text ∧
      wrap_text width text max_width = chunks.map joinWords) ∧
    (∀ w ∈ pySplit text,
      w.toList ≠ [] ∧ ∀ c ∈ w.toList, c.isWhitespace = false) ∧
    (∀ l ∈ wrap_text width text max_width,
      width l ≤ max_width ∨ (l ∈ pySplit text ∧ max_width < width l)) := by
  have h0' : width "" ≤ max_width := by omega
  set ws := pySplit text with hws
  set r := ws.foldl (wrapStep width max_width) ([], []) with hrdef
  have hwrap : wrap_text width text max_width =
      if r.2.isEmpty then r.1 else r.1 ++ [joinWords r.2] := rfl
  have H := wrap_foldl_inv width max_width ws h0' ws ([], [])
    ⟨[], by simp, rfl, by simp, Or.inl rfl⟩
  rw [← hrdef] at H
  obtain ⟨chunks, hflat, hlines, hQ, hcur⟩ := H
  simp only [List.append_nil] at hflat
  by_cases hemp : r.2.isEmpty
  · have hc2 : r.2 = [] := List.isEmpty_iff.mp hemp
    rw [hc2, List.append_nil] at hflat
    rw [hwrap, if_pos hemp]
    refine ⟨?_, ⟨chunks, hflat, hlines⟩, pySplit_words text, fun l hl => hQ l hl⟩
    rw [hlines]
    intro hcontra
    have hch : chunks = [] := List.map_eq_nil_iff.mp hcontra
    rw [hch] at hflat
    exact hne (by simpa using hflat.symm)
  · rw [hwrap, if_neg hemp]
    have hc2 : r.2 ≠ [] := by simpa [List.isEmpty_iff] using hemp
    refine ⟨by simp, ⟨chunks ++ [r.2], ?_, ?_⟩, pySplit_words text, ?_⟩
    · simp [hflat]
    · simp [hlines]
    · intro l hl
      rcases List.mem_append.mp hl with h1 | h2
      · exact hQ l h1
      · have hl3 : l = joinWords r.2 := by simpa using h2
        subst hl3
        rcases hcur with hnil | ⟨u, hu, hcu⟩ | hfits
        · exact absurd hnil hc2
        · rw [hcu]
          by_cases hwu : width (joinWords [u]) ≤ max_width
          · exact Or.inl hwu
          · exact Or.inr ⟨hu, by omega⟩
        · exact Or.inl hfits

/-- C3 witness: wrapping `"aa bb cc"` at width 5 under the character-count
metric. -/
theorem wrap_text_sound_witness :
    wrap_text String.length "aa bb cc" 5 ≠ [] ∧
    (∃ chunks : List (List String),
      chunks.flatten = pySplit "aa bb cc" ∧
      wrap_text String.length "aa bb cc" 5 = chunks.map joinWords) ∧
    (∀ w ∈ pySplit "aa bb cc",
      w.toList ≠ [] ∧ ∀ c ∈ w.toList, c.isWhitespace = false) ∧
    (∀ l ∈ wrap_text String.length "aa bb cc" 5,
      String.length l ≤ 5 ∨ (l ∈ pySplit "aa bb cc" ∧ 5 < String.length l)) :=
  wrap_text_sound String.length "aa bb cc" 5 (by decide) rfl

theorem foldl_wrapStep_lines_extend (width : String → Nat) (max_width : Nat) :
    ∀ (rem : List String) (lines cur : List String),
      ∃ t : List String,
        (List.foldl (wrapStep width max_width) (lines, cur) rem).1 = lines ++ t
  | [], lines, cur => ⟨[], by simp⟩
  | w :: rem, lines, cur => by
      rw [List.foldl_cons]
      by_cases hfit : width (joinWords (cur ++ [w])) ≤ max_width
      · have hstep : wrapStep width max_width (lines, cur) w =
            (lines, cur ++ [w]) := by
          simp [wrapStep, hfit]
        rw [hstep]
        exact foldl_wrapStep_lines_extend width max_width rem lines (cur ++ [w])
      · have hstep : wrapStep width max_width (lines, cur) w =
            (lines ++ [joinWords cur], [w]) := by
          simp [wrapStep, hfit]
        rw [hstep]
        obtain ⟨t, ht⟩ := foldl_wrapStep_lines_extend width max_width rem
          (lines ++ [joinWords cur]) [w]
        exact ⟨joinWords cur :: t, by rw [ht]; simp⟩

/-- C10: whenever the first word of the title alone exceeds the maximum
width, the loop closes the still-empty current line, so the first returned
line is the empty string; in particular a single over-wide word yields
exactly the two lines `["", word]`. -/
theorem wrap_text_empty_line (width : String → Nat) (text : String)
    (max_width : Nat) (w : String) (rest : List String)
    (hsplit : pySplit text = w :: rest) (hover : max_width < width w) :
    ∃ tail : List String, wrap_text width text max_width = "" :: tail ∧
      (rest = [] → tail = [w]) := by
  have hcond : ¬ width (joinWords ([] ++ [w])) ≤ max_width := by
    show ¬ width w ≤ max_width
    omega
  have hstep : wrapStep width max_width ([], []) w = ([""], [w]) := by
    simp only [wrapStep]
    rw [if_neg hcond]
    rfl
  have hunfold : wrap_text width text max_width =
      if (rest.foldl (wrapStep width max_width) ([""], [w])).2.isEmpty
        then (rest.foldl (wrapStep width max_width) ([""], [w])).1
        else (rest.foldl (wrapStep width max_width) ([""], [w])).1 ++
          [joinWords (rest.foldl (wrapStep width max_width) ([""], [w])).2] := by
    simp only [wrap_text, hsplit, List.foldl_cons, hstep]
  obtain ⟨t, ht⟩ := foldl_wrapStep_lines_extend width max_width rest [""] [w]
  by_cases hemp : (rest.foldl (wrapStep width max_width) ([""], [w])).2.isEmpty
  · refine ⟨t, ?_, ?_⟩
    · rw [hunfold, if_pos hemp, ht]
      rfl
    · intro hrest
      subst hrest
      simp at hemp
  · refine ⟨t ++ [joinWords (rest.foldl (wrapStep width max_width)
        ([""], [w])).2], ?_, ?_⟩
    · rw [hunfold, if_neg hemp, ht]
      simp
    · intro hrest
      subst hrest
      have ht2 : ([""] : List String) = [""] ++ t := by simpa using ht
      have ht3 : t = [] := by
        have hlen := congrArg List.length ht2
        simp at hlen
        exact hlen
      subst ht3
      simp [joinWords]

/-- C10 witness: a single word of 20 characters at maximum width 10 yields
exactly the lines `["", word]`. -/
theorem wrap_text_empty_line_witness :
    ∃ tail : List String,
      wrap_text String.length "Supercalifragilistic" 10 = "" :: tail ∧
      (([] : List String) = [] → tail = ["Supercalifragilistic"]) :=
  wrap_text_empty_line String.length "Supercalifragilistic" 10
    "Supercalifragilistic" [] (by decide) (by decide)
